import Mathlib

/-
Verification of the exception memory pool in
src/include/exception_memory_pool.hpp (class ExceptionMemoryPool).

The pool is a fixed array of pool_size slots; each slot is a pair of an
atomic occupancy flag and a pointer to a fixed-size buffer.  We shallowly
embed the sequential behaviour of its operations: the slot array becomes a
list of occupancy flags together with a function from slot index to the
buffer address, a thread is represented by the hash value that determines
its probe start index, and each operation returns an explicit result marker
in place of calling one of the policy hooks (exception_too_large,
exception_memory_pool_exhausted, exception_memory_pool_leak).  The probing
while-loops are embedded with an explicit fuel argument equal to pool_size;
a dedicated result marker records the (provably unreachable) case of the
fuel running out before the loop condition fails.
-/

set_option autoImplicit false

namespace StaticException

/-- Embeds ExceptionMemoryPool::inc_idx: the index increased by one, wrapping
to zero when it reaches pool_size. -/
def inc_idx (pool_size idx : Nat) : Nat :=
  if idx + 1 = pool_size then 0 else idx + 1

/-- Embeds ExceptionMemoryPool::start_idx: the thread specific start index,
the hash of the thread identity reduced modulo pool_size.  The hash itself is
abstracted as a natural number parameter. -/
def start_idx (pool_size hash : Nat) : Nat :=
  hash % pool_size

/-- The pool state.  pool_size and max_exception_size are the compile-time
constants of ExceptionMemoryPool; storage gives the buffer address of each
slot (the second component of each m_pool element, fixed at construction);
occ lists the occupancy flags (the first, atomic_flag component of each
m_pool element), in slot order. -/
structure Pool where
  pool_size : Nat
  max_exception_size : Nat
  storage : Nat → Nat
  occ : List Bool

/-- Result of ExceptionMemoryPool::allocate.  ok gives the returned buffer
address; tooLarge marks the call of exception_too_large; exhausted marks the
call of exception_memory_pool_exhausted; fuelOut marks exhaustion of the loop
fuel of the embedding, which never occurs for well-formed arguments. -/
inductive AllocResult where
  | ok (addr : Nat)
  | tooLarge
  | exhausted
  | fuelOut
deriving DecidableEq, Repr

/-- Result of ExceptionMemoryPool::deallocate.  freed gives the index of the
slot whose flag was cleared; leak marks the call of
exception_memory_pool_leak; fuelOut marks exhaustion of the loop fuel of the
embedding, which never occurs for well-formed arguments. -/
inductive DeallocResult where
  | freed (idx : Nat)
  | leak
  | fuelOut
deriving DecidableEq, Repr

/-- The while-loop of ExceptionMemoryPool::allocate.  While idx differs from
start, the loop performs test_and_set on the flag of slot idx: the flag is
set and its previous value inspected.  If the previous value was false the
slot has been won and its buffer address is returned; otherwise the loop
advances to inc_idx idx.  When idx returns to start the loop ends and the
exhaustion hook is signalled. -/
def allocLoop (storage : Nat → Nat) (n start : Nat) :
    Nat → Nat → List Bool → AllocResult × List Bool
  | 0, _, occ => (AllocResult.fuelOut, occ)
  | fuel + 1, idx, occ =>
    if idx = start then
      (AllocResult.exhausted, occ)
    else if occ.getD idx false then
      allocLoop storage n start fuel (inc_idx n idx) (occ.set idx true)
    else
      (AllocResult.ok (storage idx), occ.set idx true)

/-- Embeds ExceptionMemoryPool::allocate for the thread whose cached hash is
the given value: when the requested size exceeds max_exception_size the
oversize hook is signalled at once; otherwise the probe loop runs from
inc_idx (start_idx hash). -/
def allocate (p : Pool) (hash ts : Nat) : AllocResult × List Bool :=
  if ts > p.max_exception_size then
    (AllocResult.tooLarge, p.occ)
  else
    allocLoop p.storage p.pool_size (start_idx p.pool_size hash)
      p.pool_size (inc_idx p.pool_size (start_idx p.pool_size hash)) p.occ

/-- The while-loop of ExceptionMemoryPool::deallocate.  While idx differs
from start, the loop compares the buffer address of slot idx with the given
pointer: on a match the flag of that slot is cleared and the loop returns;
otherwise the loop advances to inc_idx idx.  When idx returns to start the
loop ends and the leak hook is signalled. -/
def deallocLoop (storage : Nat → Nat) (n start ptr : Nat) :
    Nat → Nat → List Bool → DeallocResult × List Bool
  | 0, _, occ => (DeallocResult.fuelOut, occ)
  | fuel + 1, idx, occ =>
    if idx = start then
      (DeallocResult.leak, occ)
    else if storage idx = ptr then
      (DeallocResult.freed idx, occ.set idx false)
    else
      deallocLoop storage n start ptr fuel (inc_idx n idx) occ

/-- Embeds ExceptionMemoryPool::deallocate for the thread whose cached hash
is the given value: the search loop runs from inc_idx (start_idx hash). -/
def deallocate (p : Pool) (hash ptr : Nat) : DeallocResult × List Bool :=
  deallocLoop p.storage p.pool_size (start_idx p.pool_size hash) ptr
    p.pool_size (inc_idx p.pool_size (start_idx p.pool_size hash)) p.occ

/-- Embeds ExceptionMemoryPool::is_allocated_by_this_pool.  The function
first subtracts the size of the header that the runtime layer prepends
(sizeof of the refcounted exception header, abstracted here as the
headerSize parameter since that header is defined outside this repository)
and then scans every slot for a buffer address equal to the difference. -/
def is_allocated_by_this_pool (p : Pool) (headerSize vptr : Nat) : Bool :=
  (List.range p.pool_size).any fun i => vptr - headerSize == p.storage i

/-- The sequence of slot indices probed by a full loop of allocate or
deallocate for a thread with the given start index: the residues of
start + 1, start + 2, up to start + pool_size - 1, in that order.  Used to
characterise the loops. -/
def probeList (n start : Nat) : List Nat :=
  (List.range (n - 1)).map fun k => (start + 1 + k) % n

/-- The first index in the given list whose occupancy flag is false. -/
def firstFree (occ : List Bool) : List Nat → Option Nat
  | [] => none
  | i :: rest => if occ.getD i false then firstFree occ rest else some i

/-- The first index in the given list whose buffer address equals ptr. -/
def findPtr (storage : Nat → Nat) (ptr : Nat) : List Nat → Option Nat
  | [] => none
  | i :: rest => if storage i = ptr then some i else findPtr storage ptr rest

/-- Concrete pool used for the scenarios of the spec: capacity 4, maximal
size 16, buffer addresses 100, 101, 102, 103, all slots free. -/
def pool4 : Pool :=
  { pool_size := 4, max_exception_size := 16,
    storage := fun i => 100 + i, occ := [false, false, false, false] }

/-- Results of count successive allocate calls with a fixed hash and size,
each call acting on the state left by the previous one. -/
def allocN : Pool → Nat → Nat → Nat → List AllocResult
  | _, _, _, 0 => []
  | p, hash, ts, count + 1 =>
    let r := allocate p hash ts
    r.1 :: allocN { p with occ := r.2 } hash ts count

theorem getD_set_same (l : List Bool) (i : Nat) (b : Bool) (h : i < l.length) :
    (l.set i b).getD i false = b := by
  rw [List.getD_eq_getD_get?, List.get?_eq_getElem?, List.getElem?_set_self h]
  rfl

theorem getD_set_other (l : List Bool) (i j : Nat) (b : Bool) (h : i ≠ j) :
    (l.set i b).getD j false = l.getD j false := by
  rw [List.getD_eq_getD_get?, List.getD_eq_getD_get?, List.get?_eq_getElem?,
    List.get?_eq_getElem?, List.getElem?_set_ne h]

theorem set_eq_self_of_getD (l : List Bool) (i : Nat) (b : Bool)
    (hlen : i < l.length) (h : l.getD i false = b) : l.set i b = l := by
  apply List.ext_getElem?
  intro j
  by_cases hj : i = j
  · subst hj
    rw [List.getElem?_set_self hlen, List.getElem?_eq_getElem hlen]
    rw [List.getD_eq_getElem l false hlen] at h
    rw [h]
  · rw [List.getElem?_set_ne hj]

theorem inc_idx_eq_mod (n idx : Nat) (h : idx < n) : inc_idx n idx = (idx + 1) % n := by
  unfold inc_idx
  by_cases h1 : idx + 1 = n
  · rw [if_pos h1, h1, Nat.mod_self]
  · rw [if_neg h1, Nat.mod_eq_of_lt (by omega)]

theorem inc_idx_mod (n a : Nat) (hn : 0 < n) : inc_idx n (a % n) = (a + 1) % n := by
  rw [inc_idx_eq_mod n (a % n) (Nat.mod_lt _ hn), Nat.mod_add_mod]

theorem probe_ne_start (n start j : Nat) (hs : start < n) (hj : j < n - 1) :
    (start + 1 + j) % n ≠ start := by
  intro h
  rcases Nat.lt_or_ge (start + 1 + j) n with hlt | hge
  · rw [Nat.mod_eq_of_lt hlt] at h
    omega
  · rw [Nat.mod_eq_sub_mod hge, Nat.mod_eq_of_lt (by omega)] at h
    omega

theorem probe_last (n start : Nat) (hs : start < n) :
    (start + 1 + (n - 1)) % n = start := by
  have h1 : start + 1 + (n - 1) = start + n := by omega
  rw [h1, Nat.add_mod_right, Nat.mod_eq_of_lt hs]

theorem probeList_length (n start : Nat) : (probeList n start).length = n - 1 := by
  unfold probeList
  rw [List.length_map, List.length_range]

theorem mem_probeList_iff (n start i : Nat) (hn : 0 < n) (hs : start < n) :
    i ∈ probeList n start ↔ (i < n ∧ i ≠ start) := by
  unfold probeList
  rw [List.mem_map]
  constructor
  · rintro ⟨k, hk, rfl⟩
    rw [List.mem_range] at hk
    exact ⟨Nat.mod_lt _ hn, probe_ne_start n start k hs hk⟩
  · rintro ⟨hi, hne⟩
    by_cases hgt : start < i
    · refine ⟨i - start - 1, ?_, ?_⟩
      · rw [List.mem_range]
        omega
      · have h1 : start + 1 + (i - start - 1) = i := by omega
        rw [h1, Nat.mod_eq_of_lt hi]
    · refine ⟨n + i - start - 1, ?_, ?_⟩
      · rw [List.mem_range]
        omega
      · have h1 : start + 1 + (n + i - start - 1) = n + i := by omega
        rw [h1, Nat.add_mod_left, Nat.mod_eq_of_lt hi]

theorem start_not_mem_probeList (n start : Nat) (hn : 0 < n) (hs : start < n) :
    start ∉ probeList n start := by
  intro h
  exact ((mem_probeList_iff n start start hn hs).1 h).2 rfl

theorem firstFree_eq_none (occ : List Bool) (l : List Nat)
    (h : ∀ i ∈ l, occ.getD i false = true) : firstFree occ l = none := by
  induction l with
  | nil => rfl
  | cons a rest ih =>
    have ha : occ.getD a false = true := h a (List.mem_cons_self a rest)
    simp only [firstFree, ha, if_true]
    exact ih fun i hi => h i (List.mem_cons_of_mem a hi)

theorem firstFree_some (occ : List Bool) (l : List Nat) (i : Nat)
    (h : firstFree occ l = some i) : i ∈ l ∧ occ.getD i false = false := by
  induction l with
  | nil => simp [firstFree] at h
  | cons a rest ih =>
    by_cases ha : occ.getD a false = true
    · simp only [firstFree, ha, if_true] at h
      rcases ih h with ⟨h1, h2⟩
      exact ⟨List.mem_cons_of_mem a h1, h2⟩
    · simp only [firstFree, ha, if_false] at h
      have hai := Option.some.inj h
      subst hai
      exact ⟨List.mem_cons_self _ _, by simpa using ha⟩

theorem findPtr_eq_some (storage : Nat → Nat) (ptr : Nat) (l : List Nat) (i : Nat)
    (hmem : i ∈ l) (hi : storage i = ptr)
    (huniq : ∀ j ∈ l, storage j = ptr → j = i) : findPtr storage ptr l = some i := by
  induction l with
  | nil => simp at hmem
  | cons a rest ih =>
    by_cases ha : storage a = ptr
    · have : a = i := huniq a (List.mem_cons_self a rest) ha
      subst this
      simp only [findPtr, ha, if_true]
    · simp only [findPtr, ha, if_false]
      rcases List.mem_cons.1 hmem with h1 | h1
      · exact absurd (h1 ▸ hi) ha
      · exact ih h1 fun j hj => huniq j (List.mem_cons_of_mem a hj)

theorem findPtr_some (storage : Nat → Nat) (ptr : Nat) (l : List Nat) (i : Nat)
    (h : findPtr storage ptr l = some i) : i ∈ l ∧ storage i = ptr := by
  induction l with
  | nil => simp [findPtr] at h
  | cons a rest ih =>
    by_cases ha : storage a = ptr
    · simp only [findPtr, ha, if_true] at h
      have hai := Option.some.inj h
      subst hai
      exact ⟨List.mem_cons_self _ _, ha⟩
    · simp only [findPtr, ha, if_false] at h
      rcases ih h with ⟨h1, h2⟩
      exact ⟨List.mem_cons_of_mem a h1, h2⟩

theorem allocLoop_aux (storage : Nat → Nat) (n start : Nat) (occ : List Bool)
    (hs : start < n) (hlen : occ.length = n) :
    ∀ (m j : Nat), j + m = n - 1 →
      allocLoop storage n start (m + 1) ((start + 1 + j) % n) occ =
        match firstFree occ ((List.range m).map fun k => (start + 1 + j + k) % n) with
        | some i => (AllocResult.ok (storage i), occ.set i true)
        | none => (AllocResult.exhausted, occ) := by
  intro m
  induction m with
  | zero =>
    intro j hj
    have hj2 : j = n - 1 := by omega
    subst hj2
    rw [probe_last n start hs]
    simp [allocLoop, firstFree]
  | succ m ih =>
    intro j hj
    have hn : 0 < n := by omega
    have hne : (start + 1 + j) % n ≠ start := probe_ne_start n start j hs (by omega)
    have hlt : (start + 1 + j) % n < n := Nat.mod_lt _ hn
    have hmap : (List.range (m + 1)).map (fun k => (start + 1 + j + k) % n) =
        ((start + 1 + j) % n) ::
          (List.range m).map fun k => (start + 1 + (j + 1) + k) % n := by
      rw [List.range_succ_eq_map, List.map_cons, List.map_map]
      refine congrArg₂ _ (by rw [Nat.add_zero]) ?_
      apply List.map_congr_left
      intro k _
      show (start + 1 + j + Nat.succ k) % n = (start + 1 + (j + 1) + k) % n
      congr 1
      omega
    rw [hmap]
    cases hocc : occ.getD ((start + 1 + j) % n) false with
    | true =>
      have hset : occ.set ((start + 1 + j) % n) true = occ :=
        set_eq_self_of_getD occ _ true (by omega) hocc
      have hinc : inc_idx n ((start + 1 + j) % n) = (start + 1 + (j + 1)) % n := by
        rw [inc_idx_mod n (start + 1 + j) hn]
        congr 1
      simp only [allocLoop, if_neg hne, hocc, if_true, hset, hinc, firstFree]
      exact ih (j + 1) (by omega)
    | false =>
      simp only [allocLoop, if_neg hne, hocc, firstFree]
      rfl

theorem allocLoop_run (storage : Nat → Nat) (n start : Nat) (occ : List Bool)
    (hn : 0 < n) (hs : start < n) (hlen : occ.length = n) :
    allocLoop storage n start n (inc_idx n start) occ =
      match firstFree occ (probeList n start) with
      | some i => (AllocResult.ok (storage i), occ.set i true)
      | none => (AllocResult.exhausted, occ) := by
  have h0 := allocLoop_aux storage n start occ hs hlen (n - 1) 0 (by omega)
  have hfuel : n - 1 + 1 = n := by omega
  have hidx : (start + 1 + 0) % n = inc_idx n start := by
    rw [inc_idx_eq_mod n start hs, Nat.add_zero]
  have hlist : ((List.range (n - 1)).map fun k => (start + 1 + 0 + k) % n) =
      probeList n start := by
    unfold probeList
    apply List.map_congr_left
    intro k _
    rw [Nat.add_zero]
  rw [hfuel, hidx, hlist] at h0
  exact h0

theorem allocate_run (p : Pool) (hash ts : Nat) (hn : 0 < p.pool_size)
    (hlen : p.occ.length = p.pool_size) (hts : ts ≤ p.max_exception_size) :
    allocate p hash ts =
      match firstFree p.occ (probeList p.pool_size (start_idx p.pool_size hash)) with
      | some i => (AllocResult.ok (p.storage i), p.occ.set i true)
      | none => (AllocResult.exhausted, p.occ) := by
  unfold allocate
  rw [if_neg (by omega)]
  exact allocLoop_run p.storage p.pool_size (start_idx p.pool_size hash) p.occ hn
    (Nat.mod_lt _ hn) hlen

theorem deallocLoop_aux (storage : Nat → Nat) (n start ptr : Nat) (occ : List Bool)
    (hs : start < n) :
    ∀ (m j : Nat), j + m = n - 1 →
      deallocLoop storage n start ptr (m + 1) ((start + 1 + j) % n) occ =
        match findPtr storage ptr ((List.range m).map fun k => (start + 1 + j + k) % n) with
        | some i => (DeallocResult.freed i, occ.set i false)
        | none => (DeallocResult.leak, occ) := by
  intro m
  induction m with
  | zero =>
    intro j hj
    have hj2 : j = n - 1 := by omega
    subst hj2
    rw [probe_last n start hs]
    simp [deallocLoop, findPtr]
  | succ m ih =>
    intro j hj
    have hn : 0 < n := by omega
    have hne : (start + 1 + j) % n ≠ start := probe_ne_start n start j hs (by omega)
    have hmap : (List.range (m + 1)).map (fun k => (start + 1 + j + k) % n) =
        ((start + 1 + j) % n) ::
          (List.range m).map fun k => (start + 1 + (j + 1) + k) % n := by
      rw [List.range_succ_eq_map, List.map_cons, List.map_map]
      refine congrArg₂ _ (by rw [Nat.add_zero]) ?_
      apply List.map_congr_left
      intro k _
      show (start + 1 + j + Nat.succ k) % n = (start + 1 + (j + 1) + k) % n
      congr 1
      omega
    rw [hmap]
    by_cases hptr : storage ((start + 1 + j) % n) = ptr
    · simp only [deallocLoop, if_neg hne, hptr, if_pos rfl, findPtr, if_true]
    · have hinc : inc_idx n ((start + 1 + j) % n) = (start + 1 + (j + 1)) % n := by
        rw [inc_idx_mod n (start + 1 + j) hn]
        congr 1
      simp only [deallocLoop, if_neg hne, if_neg hptr, hinc, findPtr]
      exact ih (j + 1) (by omega)

theorem deallocLoop_run (storage : Nat → Nat) (n start ptr : Nat) (occ : List Bool)
    (hn : 0 < n) (hs : start < n) :
    deallocLoop storage n start ptr n (inc_idx n start) occ =
      match findPtr storage ptr (probeList n start) with
      | some i => (DeallocResult.freed i, occ.set i false)
      | none => (DeallocResult.leak, occ) := by
  have h0 := deallocLoop_aux storage n start ptr occ hs (n - 1) 0 (by omega)
  have hfuel : n - 1 + 1 = n := by omega
  have hidx : (start + 1 + 0) % n = inc_idx n start := by
    rw [inc_idx_eq_mod n start hs, Nat.add_zero]
  have hlist : ((List.range (n - 1)).map fun k => (start + 1 + 0 + k) % n) =
      probeList n start := by
    unfold probeList
    apply List.map_congr_left
    intro k _
    rw [Nat.add_zero]
  rw [hfuel, hidx, hlist] at h0
  exact h0

theorem deallocate_run (p : Pool) (hash ptr : Nat) (hn : 0 < p.pool_size) :
    deallocate p hash ptr =
      match findPtr p.storage ptr (probeList p.pool_size (start_idx p.pool_size hash)) with
      | some i => (DeallocResult.freed i, p.occ.set i false)
      | none => (DeallocResult.leak, p.occ) := by
  unfold deallocate
  exact deallocLoop_run p.storage p.pool_size (start_idx p.pool_size hash) ptr p.occ hn
    (Nat.mod_lt _ hn)

theorem firstFree_none_mem (occ : List Bool) (l : List Nat)
    (h : firstFree occ l = none) : ∀ i ∈ l, occ.getD i false = true := by
  induction l with
  | nil =>
    intro i hi
    simp at hi
  | cons a rest ih =>
    intro i hi
    cases ha : occ.getD a false with
    | false =>
      simp only [firstFree, ha, Bool.false_eq_true, if_false] at h
      exact absurd h (Option.some_ne_none a)
    | true =>
      simp only [firstFree, ha, if_true] at h
      rcases List.mem_cons.1 hi with rfl | hi2
      · exact ha
      · exact ih h i hi2

/-- Helper: a release whose pointer is the buffer address of slot i succeeds and
clears slot i, provided slot i is not the start slot of the releasing thread
and no other slot shares that buffer address. -/
theorem deallocate_found (p : Pool) (hash i ptr : Nat) (hn : 0 < p.pool_size)
    (hi : i < p.pool_size) (hne : i ≠ start_idx p.pool_size hash)
    (hptr : p.storage i = ptr)
    (huniq : ∀ j, j < p.pool_size → p.storage j = ptr → j = i) :
    deallocate p hash ptr = (DeallocResult.freed i, p.occ.set i false) := by
  rw [deallocate_run p hash ptr hn]
  have hmem : i ∈ probeList p.pool_size (start_idx p.pool_size hash) :=
    (mem_probeList_iff _ _ i hn (Nat.mod_lt _ hn)).2 ⟨hi, hne⟩
  rw [findPtr_eq_some p.storage ptr _ i hmem hptr
    (fun j hj hjp => huniq j ((mem_probeList_iff _ _ j hn (Nat.mod_lt _ hn)).1 hj).1 hjp)]

/-- Concrete pool: capacity 4 with slot 1 occupied. -/
def pool4b : Pool := { pool4 with occ := [false, true, false, false] }

/-- Concrete pool: capacity 4 with every slot except slot 0 occupied. -/
def pool4c : Pool := { pool4 with occ := [false, true, true, true] }

/-- Concrete pool of capacity 2 with both slots occupied. -/
def pool2full : Pool :=
  { pool_size := 2, max_exception_size := 8, storage := fun i => 10 + i,
    occ := [true, true] }

/-- Concrete pool of capacity 2 with buffer addresses 1000 and 2000. -/
def poolHdr : Pool :=
  { pool_size := 2, max_exception_size := 16,
    storage := fun i => 1000 * (i + 1), occ := [false, false] }

/-- C1, counterexample.  The claim states that with capacity 4 four sequential
acquire calls of size 8 from one thread succeed and a fifth triggers
exhaustion.  In fact the probe loop of a single thread never examines the slot
at its own start offset, so only three of the four calls succeed and the
fourth one already triggers the exhaustion hook: on the all-free pool of
capacity 4, for the thread whose start offset is 0, the first three calls
return the addresses of slots 1, 2 and 3 and the fourth call reports
exhaustion. -/
theorem C1_counterexample :
    allocN pool4 0 8 4 =
      [AllocResult.ok 101, AllocResult.ok 102, AllocResult.ok 103,
        AllocResult.exhausted] := by
  decide

/-- C1, amended.  For a pool of capacity N in which every slot is occupied,
as after N successful acquire calls with no intervening release, the next
acquire of a valid size triggers the exhaustion hook and changes no flag;
and with capacity 4 and slot size 16, a single thread can complete only three
successful acquire calls of size 8, which return three distinct addresses,
and its fourth acquire triggers exhaustion. -/
theorem C1_capacity_bound (p : Pool) (hash ts : Nat) (hn : 0 < p.pool_size)
    (hlen : p.occ.length = p.pool_size) (hts : ts ≤ p.max_exception_size)
    (hfull : ∀ i, i < p.pool_size → p.occ.getD i false = true) :
    allocate p hash ts = (AllocResult.exhausted, p.occ) ∧
    allocN pool4 0 8 4 =
      [AllocResult.ok 101, AllocResult.ok 102, AllocResult.ok 103,
        AllocResult.exhausted] := by
  constructor
  · rw [allocate_run p hash ts hn hlen hts]
    rw [firstFree_eq_none p.occ (probeList p.pool_size (start_idx p.pool_size hash))
      (fun i hi => hfull i ((mem_probeList_iff p.pool_size (start_idx p.pool_size hash) i hn
        (Nat.mod_lt _ hn)).1 hi).1)]
  · decide

/-- C1, witness for the amended theorem: the pool of capacity 2 with both
slots occupied reports exhaustion and the concrete capacity 4 run holds. -/
theorem C1_capacity_bound_witness :
    (allocate pool2full 0 8 = (AllocResult.exhausted, pool2full.occ) ∧
      allocN pool4 0 8 4 =
        [AllocResult.ok 101, AllocResult.ok 102, AllocResult.ok 103,
          AllocResult.exhausted]) :=
  C1_capacity_bound pool2full 0 8 (by decide) (by decide) (by decide) (by decide)

/-- C2.  The claim states that a release of a pointer previously returned by
acquire and not yet released always finds and clears its slot for every
releasing thread.  The code contradicts this (and its own doc comment, which
says the leak hook fires only for memory that did not originate from the
pool): the search loop of deallocate never examines the slot at the releasing
thread's start offset.  Evaluation at the failing input: on the all-free pool
of capacity 4, a thread with start offset 3 acquires slot 0 and obtains
address 100; a thread with start offset 0 then releases address 100, and the
code invokes the leak hook and leaves slot 0 occupied. -/
theorem C2_failing_eval :
    allocate pool4 3 8 = (AllocResult.ok 100, [true, false, false, false]) ∧
    start_idx pool4.pool_size 0 = 0 ∧
    deallocate { pool4 with occ := [true, false, false, false] } 0 100 =
      (DeallocResult.leak, [true, false, false, false]) := by
  decide

/-- C3, counterexample.  The claim states that the membership test receives
an address already adjusted for the collaborator-layer header and returns
true exactly when that address equals the buffer address of some slot.  In
fact is_allocated_by_this_pool subtracts the header size itself, so on an
already adjusted address it answers false even though the address equals the
buffer address of slot 0 (pool of capacity 2, addresses 1000 and 2000,
header size 128). -/
theorem C3_counterexample :
    poolHdr.storage 0 = 1000 ∧ 0 < poolHdr.pool_size ∧
    is_allocated_by_this_pool poolHdr 128 1000 = false := by
  decide

/-- C3, amended.  The membership test receives the unadjusted address, itself
subtracts the header size the collaborator layer prepends, and returns true
if and only if the difference equals the buffer address of some slot. -/
theorem C3_membership (p : Pool) (headerSize vptr : Nat) :
    is_allocated_by_this_pool p headerSize vptr = true ↔
      ∃ i, i < p.pool_size ∧ vptr - headerSize = p.storage i := by
  simp [is_allocated_by_this_pool, List.any_eq_true, List.mem_range]

/-- C5.  For every requested size strictly greater than max_exception_size,
allocate invokes the oversize hook at once and returns without examining or
mutating any occupancy flag. -/
theorem C5_oversize (p : Pool) (hash ts : Nat) (hts : p.max_exception_size < ts) :
    allocate p hash ts = (AllocResult.tooLarge, p.occ) := by
  unfold allocate
  rw [if_pos hts]

/-- C5, witness: requesting 17 bytes from the capacity 4 pool with maximal
size 16 reports an oversized request and leaves the flags unchanged. -/
theorem C5_witness :
    allocate pool4 0 17 = (AllocResult.tooLarge, pool4.occ) :=
  C5_oversize pool4 0 17 (by decide)

/-- C6.  For a request of valid size, allocate probes the slots listed by
probeList, that is, in order from the successor of the start offset modulo
capacity, advancing by one with wraparound; it returns the buffer address of
the first slot whose flag was previously false, setting that flag; the probe
sequence has length capacity minus one and never contains the start offset
itself. -/
theorem C6_probe_order (p : Pool) (hash ts : Nat) (hn : 0 < p.pool_size)
    (hlen : p.occ.length = p.pool_size) (hts : ts ≤ p.max_exception_size) :
    allocate p hash ts =
      (match firstFree p.occ (probeList p.pool_size (start_idx p.pool_size hash)) with
       | some i => (AllocResult.ok (p.storage i), p.occ.set i true)
       | none => (AllocResult.exhausted, p.occ)) ∧
    (probeList p.pool_size (start_idx p.pool_size hash)).length = p.pool_size - 1 ∧
    start_idx p.pool_size hash ∉ probeList p.pool_size (start_idx p.pool_size hash) :=
  ⟨allocate_run p hash ts hn hlen hts, probeList_length _ _,
    start_not_mem_probeList _ _ hn (Nat.mod_lt _ hn)⟩

/-- C6, witness: the characterisation instantiated on the all-free capacity 4
pool for the thread with start offset 0 and request size 8. -/
theorem C6_witness :
    allocate pool4 0 8 =
      (match firstFree pool4.occ (probeList pool4.pool_size (start_idx pool4.pool_size 0)) with
       | some i => (AllocResult.ok (pool4.storage i), pool4.occ.set i true)
       | none => (AllocResult.exhausted, pool4.occ)) ∧
    (probeList pool4.pool_size (start_idx pool4.pool_size 0)).length = pool4.pool_size - 1 ∧
    start_idx pool4.pool_size 0 ∉ probeList pool4.pool_size (start_idx pool4.pool_size 0) :=
  C6_probe_order pool4 0 8 (by decide) (by decide) (by decide)

/-- C7.  When the buffer addresses of distinct slots are distinct, a
successful acquire of a valid size immediately followed by a release of the
returned address by the same thread succeeds and restores every occupancy
flag to its value before the acquire. -/
theorem C7_round_trip (p : Pool) (hash ts a : Nat) (occ1 : List Bool)
    (hn : 0 < p.pool_size) (hlen : p.occ.length = p.pool_size)
    (hts : ts ≤ p.max_exception_size)
    (hinj : ∀ j, j < p.pool_size → ∀ k, k < p.pool_size →
      p.storage j = p.storage k → j = k)
    (hsucc : allocate p hash ts = (AllocResult.ok a, occ1)) :
    (∃ i, (deallocate { p with occ := occ1 } hash a).1 = DeallocResult.freed i) ∧
    (deallocate { p with occ := occ1 } hash a).2 = p.occ := by
  rw [allocate_run p hash ts hn hlen hts] at hsucc
  cases hff : firstFree p.occ (probeList p.pool_size (start_idx p.pool_size hash)) with
  | none =>
    rw [hff] at hsucc
    exact absurd (congrArg Prod.fst hsucc) (by simp)
  | some i =>
    rw [hff] at hsucc
    have ha : p.storage i = a := AllocResult.ok.inj (congrArg Prod.fst hsucc)
    have hocc1 : p.occ.set i true = occ1 := congrArg Prod.snd hsucc
    obtain ⟨hmem, hfree⟩ := firstFree_some _ _ _ hff
    obtain ⟨hilt, hine⟩ :=
      (mem_probeList_iff p.pool_size (start_idx p.pool_size hash) i hn
        (Nat.mod_lt _ hn)).1 hmem
    have hres : deallocate { p with occ := occ1 } hash a =
        (DeallocResult.freed i, occ1.set i false) :=
      deallocate_found { p with occ := occ1 } hash i a hn hilt hine ha
        (fun j hj hjp => hinj j hj i hilt (hjp.trans ha.symm))
    refine ⟨⟨i, by rw [hres]⟩, ?_⟩
    rw [hres, ← hocc1, List.set_set]
    exact set_eq_self_of_getD p.occ i false (by omega) hfree

/-- C7, witness: on the all-free capacity 4 pool the thread with start offset
0 acquires address 101 and its immediate release restores the all-free
state. -/
theorem C7_witness :
    (∃ i, (deallocate { pool4 with occ := [false, true, false, false] } 0 101).1 =
      DeallocResult.freed i) ∧
    (deallocate { pool4 with occ := [false, true, false, false] } 0 101).2 = pool4.occ :=
  C7_round_trip pool4 0 8 101 [false, true, false, false] (by decide) (by decide)
    (by decide) (by decide) (by decide)

/-- C8.  On every successful acquire exactly one flag makes the transition
from false to true and every other flag is unchanged; on every successful
release of a pointer whose slot is occupied, which is the case for a pointer
previously returned by acquire and not yet released, exactly one flag makes
the transition from true to false and every other flag is unchanged. -/
theorem C8_frame (p : Pool) (hash ts ptr a i : Nat) (occ1 occ2 : List Bool)
    (hn : 0 < p.pool_size) (hlen : p.occ.length = p.pool_size) :
    (ts ≤ p.max_exception_size → allocate p hash ts = (AllocResult.ok a, occ1) →
      ∃ j, j < p.pool_size ∧ p.occ.getD j false = false ∧ occ1.getD j false = true ∧
        ∀ k, k ≠ j → occ1.getD k false = p.occ.getD k false) ∧
    (deallocate p hash ptr = (DeallocResult.freed i, occ2) →
      p.occ.getD i false = true →
      occ2.getD i false = false ∧
        ∀ k, k ≠ i → occ2.getD k false = p.occ.getD k false) := by
  constructor
  · intro hts hsucc
    rw [allocate_run p hash ts hn hlen hts] at hsucc
    cases hff : firstFree p.occ (probeList p.pool_size (start_idx p.pool_size hash)) with
    | none =>
      rw [hff] at hsucc
      exact absurd (congrArg Prod.fst hsucc) (by simp)
    | some j =>
      rw [hff] at hsucc
      have hocc1 : p.occ.set j true = occ1 := congrArg Prod.snd hsucc
      obtain ⟨hmem, hfree⟩ := firstFree_some _ _ _ hff
      have hjlt : j < p.pool_size :=
        ((mem_probeList_iff p.pool_size (start_idx p.pool_size hash) j hn
          (Nat.mod_lt _ hn)).1 hmem).1
      refine ⟨j, hjlt, hfree, ?_, ?_⟩
      · rw [← hocc1]
        exact getD_set_same p.occ j true (by omega)
      · intro k hk
        rw [← hocc1]
        exact getD_set_other p.occ j k true (fun h => hk h.symm)
  · intro hsucc hocc
    rw [deallocate_run p hash ptr hn] at hsucc
    cases hfp : findPtr p.storage ptr (probeList p.pool_size (start_idx p.pool_size hash)) with
    | none =>
      rw [hfp] at hsucc
      exact absurd (congrArg Prod.fst hsucc) (by simp)
    | some i0 =>
      rw [hfp] at hsucc
      have hii : i0 = i := DeallocResult.freed.inj (congrArg Prod.fst hsucc)
      subst hii
      have hocc2 : p.occ.set i0 false = occ2 := congrArg Prod.snd hsucc
      obtain ⟨hmem, _⟩ := findPtr_some _ _ _ _ hfp
      have hilt : i0 < p.pool_size :=
        ((mem_probeList_iff p.pool_size (start_idx p.pool_size hash) i0 hn
          (Nat.mod_lt _ hn)).1 hmem).1
      refine ⟨?_, ?_⟩
      · rw [← hocc2]
        exact getD_set_same p.occ i0 false (by omega)
      · intro k hk
        rw [← hocc2]
        exact getD_set_other p.occ i0 k false (fun h => hk h.symm)

/-- C8, witness: instantiated on the capacity 4 pool with slot 1 occupied;
the acquire by the thread with start offset 0 wins slot 2 and the release of
address 101 clears slot 1, each changing exactly that one flag. -/
theorem C8_witness :
    (8 ≤ pool4b.max_exception_size →
      allocate pool4b 0 8 = (AllocResult.ok 102, [false, true, true, false]) →
      ∃ j, j < pool4b.pool_size ∧ pool4b.occ.getD j false = false ∧
        List.getD [false, true, true, false] j false = true ∧
        ∀ k, k ≠ j →
          List.getD [false, true, true, false] k false = pool4b.occ.getD k false) ∧
    (deallocate pool4b 0 101 = (DeallocResult.freed 1, [false, false, false, false]) →
      pool4b.occ.getD 1 false = true →
      List.getD [false, false, false, false] 1 false = false ∧
        ∀ k, k ≠ 1 →
          List.getD [false, false, false, false] k false = pool4b.occ.getD k false) :=
  C8_frame pool4b 0 8 101 102 1 [false, true, true, false] [false, false, false, false]
    (by decide) (by decide)

/-- C9.  For a request of valid size, allocate invokes the exhaustion hook
exactly when every slot other than the one at the start offset of the calling
thread is occupied, and in that case it changes no flag; and exhaustion can
fire while the start slot itself is still free, as on the capacity 4 pool in
which only slot 0, the start slot of the calling thread, is free. -/
theorem C9_exhaustion (p : Pool) (hash ts : Nat) (hn : 0 < p.pool_size)
    (hlen : p.occ.length = p.pool_size) (hts : ts ≤ p.max_exception_size) :
    ((allocate p hash ts).1 = AllocResult.exhausted ↔
      ∀ i, i < p.pool_size → i ≠ start_idx p.pool_size hash →
        p.occ.getD i false = true) ∧
    ((allocate p hash ts).1 = AllocResult.exhausted →
      (allocate p hash ts).2 = p.occ) ∧
    ((allocate pool4c 0 8).1 = AllocResult.exhausted ∧
      pool4c.occ.getD (start_idx pool4c.pool_size 0) false = false) := by
  have hrun := allocate_run p hash ts hn hlen hts
  cases hff : firstFree p.occ (probeList p.pool_size (start_idx p.pool_size hash)) with
  | some i0 =>
    rw [hff] at hrun
    refine ⟨⟨?_, ?_⟩, ?_, by decide⟩
    · intro hex
      rw [hrun] at hex
      exact absurd hex (by simp)
    · intro hall
      exfalso
      obtain ⟨hmem, hfree⟩ := firstFree_some _ _ _ hff
      obtain ⟨hilt, hine⟩ :=
        (mem_probeList_iff p.pool_size (start_idx p.pool_size hash) i0 hn
          (Nat.mod_lt _ hn)).1 hmem
      have := hall i0 hilt hine
      rw [hfree] at this
      exact absurd this (by simp)
    · intro hex
      rw [hrun] at hex
      exact absurd hex (by simp)
  | none =>
    rw [hff] at hrun
    refine ⟨⟨?_, ?_⟩, ?_, by decide⟩
    · intro _ i hi hne
      exact firstFree_none_mem p.occ _ hff i
        ((mem_probeList_iff p.pool_size (start_idx p.pool_size hash) i hn
          (Nat.mod_lt _ hn)).2 ⟨hi, hne⟩)
    · intro _
      rw [hrun]
    · intro _
      rw [hrun]

/-- C9, witness: the characterisation instantiated on the all-free capacity 4
pool for the thread with start offset 0 and request size 8. -/
theorem C9_witness :
    ((allocate pool4 0 8).1 = AllocResult.exhausted ↔
      ∀ i, i < pool4.pool_size → i ≠ start_idx pool4.pool_size 0 →
        pool4.occ.getD i false = true) ∧
    ((allocate pool4 0 8).1 = AllocResult.exhausted →
      (allocate pool4 0 8).2 = pool4.occ) ∧
    ((allocate pool4c 0 8).1 = AllocResult.exhausted ∧
      pool4c.occ.getD (start_idx pool4c.pool_size 0) false = false) :=
  C9_exhaustion pool4 0 8 (by decide) (by decide) (by decide)

/-- C10.  Every index with which allocate or deallocate accesses the slot
array lies below pool_size: the thread start index is a residue modulo
pool_size, inc_idx agrees with the successor modulo pool_size and maps
indices below pool_size to indices below pool_size, and every element of the
probe sequence lies below pool_size. -/
theorem C10_index_bounds (n hash idx : Nat) (hn : 0 < n) (hidx : idx < n) :
    start_idx n hash < n ∧ inc_idx n idx = (idx + 1) % n ∧ inc_idx n idx < n ∧
    ∀ i ∈ probeList n (start_idx n hash), i < n := by
  refine ⟨Nat.mod_lt _ hn, inc_idx_eq_mod n idx hidx, ?_, ?_⟩
  · rw [inc_idx_eq_mod n idx hidx]
    exact Nat.mod_lt _ hn
  · intro i hi
    exact ((mem_probeList_iff n (start_idx n hash) i hn (Nat.mod_lt _ hn)).1 hi).1

/-- C10, witness: the bounds instantiated at pool size 4, hash 7 and
index 3. -/
theorem C10_witness :
    start_idx 4 7 < 4 ∧ inc_idx 4 3 = (3 + 1) % 4 ∧ inc_idx 4 3 < 4 ∧
    ∀ i ∈ probeList 4 (start_idx 4 7), i < 4 :=
  C10_index_bounds 4 7 3 (by decide) (by decide)

end StaticException
